import Mathlib

/-!
Verification development for the dataflow-join repository.

The definitions below are shallow embeddings of the repository's Rust
source: `gallop`, `intersect` and `raw_triangles` from
`examples/triangles-single.rs`, and the count / propose / intersect
phases of the GenericJoin layer from `src/lib-fail.rs`.  Rust slices
become `List Nat` (sub-slicing becomes `List.drop`), `u64` counts
become `Nat`, and the stream operators (`filter_map` over per-prefix
records) become `List.filterMap` over explicit record lists.
-/

namespace DataflowJoin

/-- Guarded indexed comparison: `ltAt l i v` models the Rust pattern
`i < l.len() && l[i] < v` (the length check guards the access). -/
def ltAt (l : List Nat) (i v : Nat) : Bool :=
  match l[i]? with
  | some x => decide (x < v)
  | none => false

/-- First loop of `gallop`: `while step < slice.len() && slice[step] < value
{ slice = &slice[step..]; step = step << 1; }`.  The positivity argument
records that the loop is entered with `step = 1` and only doubles it. -/
def gallopLoop1 (slice : List Nat) (value : Nat) (step : Nat) (h : 0 < step) :
    List Nat × Nat :=
  if hg : ltAt slice step value then
    gallopLoop1 (slice.drop step) value (step * 2) (by omega)
  else
    (slice, step)
termination_by slice.length
decreasing_by
  simp only [List.length_drop]
  have hlen : step < slice.length := by
    by_contra hc
    simp only [ltAt, List.getElem?_eq_none (Nat.le_of_not_lt hc)] at hg
    exact Bool.false_ne_true hg
  omega

/-- Second loop of `gallop`: `while step > 0 { if step < slice.len() &&
slice[step] < value { slice = &slice[step..]; } step = step >> 1; }`. -/
def gallopLoop2 (slice : List Nat) (value : Nat) (step : Nat) : List Nat :=
  if step = 0 then slice
  else
    gallopLoop2 (if ltAt slice step value then slice.drop step else slice) value (step / 2)
termination_by step
decreasing_by omega

/-- `gallop` from `examples/triangles-single.rs`: exponential search then
binary refinement, returning the suffix of `slice` from the first element
`>= value` (on ascending input). -/
def gallop (slice : List Nat) (value : Nat) : List Nat :=
  if ltAt slice 0 value then
    let r1 := gallopLoop1 slice value 1 Nat.one_pos
    let r2 := gallopLoop2 r1.1 value (r1.2 / 2)
    r2.drop 1
  else
    slice

/-- Merge (two-pointer) branch of `intersect` from
`examples/triangles-single.rs`: advance the list with the smaller head, on
equal heads advance both and count a match. -/
def mergeCount : List Nat → List Nat → Nat
  | [], _ => 0
  | _ :: _, [] => 0
  | a :: aaa, b :: bbb =>
    if a > b then mergeCount (a :: aaa) bbb
    else if a < b then mergeCount aaa (b :: bbb)
    else 1 + mergeCount aaa bbb
termination_by x y => x.length + y.length
decreasing_by
  all_goals simp only [List.length_cons]
  all_goals omega

/-- Gallop branch of `intersect`: for each `a` of `aaa`, advance `bbb` with
`gallop` and count a match when the new head equals `a`. -/
def gallopCount : List Nat → List Nat → Nat
  | [], _ => 0
  | a :: aaa, bbb =>
    let b := gallop bbb a
    (if b.head? = some a then 1 else 0) + gallopCount aaa b

/-- `intersect` from `examples/triangles-single.rs`: the gallop branch when
`aaa.len() < bbb.len() / 4`, the merge branch otherwise. -/
def intersect (aaa bbb : List Nat) : Nat :=
  if aaa.length < bbb.length / 4 then gallopCount aaa bbb else mergeCount aaa bbb

/-- Specification-side oracle: `|A ∩ B|`, the number of elements of `A` also
present in `B` (equals the size of the set intersection when `A` has no
duplicates). -/
def interCount (aaa bbb : List Nat) : Nat :=
  (aaa.filter (fun x => decide (x ∈ bbb))).length

/-- A graph as adjacency lists: node `u`'s neighbours are `g[u]` (empty when
out of range), mirroring `GraphMMap::edges`. -/
def edges (g : List (List Nat)) (u : Nat) : List Nat := (g[u]?).getD []

/-- A graph is well-formed when every adjacency list is strictly ascending
(hence duplicate-free) and every neighbour id is in `[0, N)` (spec §3). -/
def WellFormed (g : List (List Nat)) : Prop :=
  ∀ l ∈ g, l.Sorted (· < ·) ∧ ∀ x ∈ l, x < g.length

/-- The returned value of `raw_triangles` from `examples/triangles-single.rs`
(the function's second loop; its first loop only prints a node count). -/
def raw_triangles (g : List (List Nat)) : Nat :=
  ((List.range g.length).map (fun a =>
    ((edges g a).map (fun b =>
      if (edges g a).length < (edges g b).length
      then intersect (edges g a) (edges g b)
      else intersect (edges g b) (edges g a))).sum)).sum

/-- Brute-force directed-triangle oracle: the number of triples `(a, b, c)`
with edges `a→b`, `a→c`, `b→c`. -/
def bruteTriangles (g : List (List Nat)) : Nat :=
  ((List.range g.length).map (fun a =>
    ((List.range g.length).map (fun b =>
      ((List.range g.length).map (fun c =>
        if b ∈ edges g a ∧ c ∈ edges g a ∧ c ∈ edges g b then 1 else 0)).sum)).sum)).sum

/-- The `PrefixExtender` capability of `src/lib-fail.rs` (count / propose /
intersect; routing only colocates work and is identity in a single-worker
embedding). -/
structure Extender (P E : Type) where
  count : P → Nat
  propose : P → List E
  intersect : P → List E → List E

/-- One `count` operator from `StreamPrefixExtender::count`
(`src/lib-fail.rs` lines 86-102): keep the incoming `(prefix, c, i)` when this
extender's count `nc` exceeds `c`, replace it by `(prefix, nc, ident)` when
`0 < nc ≤ c`, and drop the prefix when `nc = 0`. -/
def countStep {P E : Type} (ext : Extender P E) (ident : Nat)
    (recs : List (P × Nat × Nat)) : List (P × Nat × Nat) :=
  recs.filterMap (fun r =>
    let nc := ext.count r.1
    if nc > r.2.1 then some r
    else if nc > 0 then some (r.1, nc, ident) else none)

/-- The count phase of a GenericJoin layer (`GenericJoinExt::extend`): start
every prefix at `(p, 1 << 31, 0)` and fold every extender's `count` operator
over the records in declaration order. -/
def countPhase {P E : Type} (exts : List (Extender P E)) (ps : List P) :
    List (P × Nat × Nat) :=
  exts.enum.foldl (fun cs ie => countStep ie.2 ie.1 cs)
    (ps.map (fun p => (p, 2 ^ 31, 0)))

/-- `StreamPrefixExtender::propose`: pair every prefix with this extender's
proposal vector. -/
def proposePhase {P E : Type} (ext : Extender P E) (ps : List P) :
    List (P × List E) :=
  ps.map (fun p => (p, ext.propose p))

/-- `StreamPrefixExtender::intersect` (`src/lib-fail.rs` lines 119-133):
filter each candidate vector through this extender and drop the pair the
moment it becomes empty. -/
def intersectPhase {P E : Type} (ext : Extender P E)
    (recs : List (P × List E)) : List (P × List E) :=
  recs.filterMap (fun r =>
    if (ext.intersect r.1 r.2).length > 0
    then some (r.1, ext.intersect r.1 r.2) else none)

/-- Fallback extender for out-of-range indexing (never reached: `extendLayer`
only indexes inside `List.range exts.length`). -/
def defaultExtender (P E : Type) : Extender P E :=
  ⟨fun _ => 0, fun _ => [], fun _ _ => []⟩

/-- A full GenericJoin layer (`GenericJoinExt::extend`, `src/lib-fail.rs`
lines 150-175): count with every extender, partition the surviving records by
owning extender index, let each owner propose for its partition, let every
other extender intersect in declaration order, and concatenate the parts. -/
def extendLayer {P E : Type} (exts : List (Extender P E)) (ps : List P) :
    List (P × List E) :=
  let counts := countPhase exts ps
  ((List.range exts.length).map (fun index =>
    let noms := (counts.filter (fun r => decide (r.2.2 = index))).map (fun r => r.1)
    let proposals := proposePhase (exts.getD index (defaultExtender P E)) noms
    ((List.range exts.length).filter (fun x => decide (x ≠ index))).foldl
      (fun cur other => intersectPhase (exts.getD other (defaultExtender P E)) cur)
      proposals)).flatten

/-- Per-prefix trace of a chain of intersect operators: thread one candidate
vector through the extenders named by `l` in order; `none` the moment the
vector becomes empty. -/
def stepFold {P E : Type} (exts : List (Extender P E)) (p : P) (l : List Nat)
    (es0 : List E) : Option (List E) :=
  l.foldl (fun acc other => acc.bind (fun es =>
    if ((exts.getD other (defaultExtender P E)).intersect p es).length > 0
    then some ((exts.getD other (defaultExtender P E)).intersect p es)
    else none)) (some es0)

/-- Per-prefix trace of one layer: the owner's proposals filtered by every
non-owning extender in declaration order, `none` the moment the candidate
vector becomes empty. -/
def processOne {P E : Type} (exts : List (Extender P E)) (index : Nat) (p : P) :
    Option (List E) :=
  stepFold exts p ((List.range exts.length).filter (fun x => decide (x ≠ index)))
    ((exts.getD index (defaultExtender P E)).propose p)

/-- How a harness process terminates: `normal b` is exit status 0 (with `b`
recording whether the usage line was printed), `abnormal` is any panic/abort
path — a nonzero or signal-terminated exit. -/
inductive ExitBehavior where
  | normal (printedUsage : Bool)
  | abnormal
deriving DecidableEq

/-- `main` of `examples/triangles-single.rs` over the argument list after the
program name: with no argument it prints `usage: <source>` and returns
normally (exit status 0); with an argument it loads the graph and prints the
triangle count (exit status 0).  The load happens in the external `graph_map`
crate, so its outcome is an input `loadOk`; that a failing load aborts the
process rather than exiting 0 is modelled from the spec (nonzero/abnormal exit
on I/O failure, §6-§7). -/
def trianglesMain (args : List String) (loadOk : Bool) : ExitBehavior :=
  match args with
  | [] => ExitBehavior.normal true
  | _ :: _ => if loadOk then ExitBehavior.normal false else ExitBehavior.abnormal

/-- Argument handling of `main` in `examples/pagerank-simple.rs`.  The docopt
parse either fails — `unwrap_or_else(|e| e.exit())` on line 45 terminates the
process, modelled by `docoptOk = false` — or yields option strings whose
numeric parses (`--workers`, `--processid`, `--processes`, lines 52-57) each
panic when they fail; `Option Nat` stands for the result of `str::parse`, and
`Except.error` marks every abnormal (nonzero/aborting) exit path. -/
def pagerankMain (docoptOk : Bool) (w p n : Option Nat) : Except String Unit :=
  if docoptOk then
    match w with
    | none => Except.error "invalid setting for --workers"
    | some _ =>
      match p with
      | none => Except.error "invalid setting for --processid"
      | some _ =>
        match n with
        | none => Except.error "invalid setting for --processes"
        | some _ => Except.ok ()
  else Except.error "docopt parse failure: e.exit terminates the process"

/-! ### Basic facts about `ltAt`, sorted lists and `dropWhile` -/

theorem ltAt_iff {l : List Nat} {i v : Nat} :
    ltAt l i v = true ↔ ∃ y, l[i]? = some y ∧ y < v := by
  unfold ltAt
  cases h : l[i]? <;> simp

theorem le_of_not_ltAt {l : List Nat} {i v : Nat} (h : ¬ ltAt l i v = true) :
    ∀ y, l[i]? = some y → v ≤ y := by
  intro y hy
  by_contra hc
  exact h (ltAt_iff.mpr ⟨y, hy, by omega⟩)

theorem sorted_ge_at {l : List Nat} {n j k : Nat} (hs : l.Sorted (· < ·))
    (hn : ∀ y, l[n]? = some y → k ≤ y) (hnj : n ≤ j) :
    ∀ y, l[j]? = some y → k ≤ y := by
  intro y hy
  rcases Nat.eq_or_lt_of_le hnj with rfl | hlt
  · exact hn y hy
  · obtain ⟨hjl, rfl⟩ := List.getElem?_eq_some_iff.mp hy
    have hnl : n < l.length := Nat.lt_trans hlt hjl
    have h1 : l.get ⟨n, hnl⟩ < l.get ⟨j, hjl⟩ := hs.rel_get_of_lt hlt
    have h2 := hn (l.get ⟨n, hnl⟩) (by simp)
    simp only [List.get_eq_getElem] at h1 h2
    omega

theorem dropWhile_drop_of_ltAt {l : List Nat} {n k : Nat} (hs : l.Sorted (· < ·))
    (hg : ltAt l n k = true) :
    (l.drop n).dropWhile (fun x => decide (x < k)) =
      l.dropWhile (fun x => decide (x < k)) := by
  obtain ⟨y, hy, hyk⟩ := ltAt_iff.mp hg
  have h1 : ∀ a ∈ l.take n, (fun x => decide (x < k)) a = true := by
    intro x hx
    have hyd : y ∈ l.drop n :=
      List.getElem?_mem (show (l.drop n)[0]? = some y by
        rw [List.getElem?_drop]; simpa using hy)
    have hxy := hs.rel_of_mem_take_of_mem_drop hx hyd
    simp only [decide_eq_true_eq]
    omega
  conv_rhs => rw [← List.take_append_drop n l, List.dropWhile_append_of_pos h1]

theorem ltAt_drop_zero {l : List Nat} {n k : Nat} (hg : ltAt l n k = true) :
    ltAt (l.drop n) 0 k = true := by
  obtain ⟨y, hy, hyk⟩ := ltAt_iff.mp hg
  exact ltAt_iff.mpr ⟨y, by rw [List.getElem?_drop]; simpa using hy, hyk⟩

theorem sorted_drop {l : List Nat} (n : Nat) (hs : l.Sorted (· < ·)) :
    (l.drop n).Sorted (· < ·) :=
  List.Pairwise.sublist (List.drop_sublist n l) hs

theorem dropWhile_eq_drop_one {l : List Nat} {k : Nat} (hh : ltAt l 0 k = true)
    (hb : ∀ j y, l[j]? = some y → 1 ≤ j → k ≤ y) :
    l.dropWhile (fun x => decide (x < k)) = l.drop 1 := by
  cases l with
  | nil => simp [ltAt] at hh
  | cons a t =>
    obtain ⟨y, hy, hyk⟩ := ltAt_iff.mp hh
    simp only [List.getElem?_cons_zero, Option.some.injEq] at hy
    subst hy
    rw [List.dropWhile_cons_of_pos (by simpa)]
    cases t with
    | nil => simp
    | cons b u =>
      have hbk := hb 1 b (by simp) (Nat.le_refl 1)
      rw [List.dropWhile_cons_of_neg (by simp; omega)]
      simp

/-! ### Invariants of the two gallop loops -/

theorem gallopLoop1_spec (slice : List Nat) (k step : Nat) (h : 0 < step) :
    slice.Sorted (· < ·) → ltAt slice 0 k = true → (∃ m, step = 2 ^ m) →
    (gallopLoop1 slice k step h).1.Sorted (· < ·) ∧
    ltAt (gallopLoop1 slice k step h).1 0 k = true ∧
    (gallopLoop1 slice k step h).1.dropWhile (fun x => decide (x < k)) =
      slice.dropWhile (fun x => decide (x < k)) ∧
    (∃ m, (gallopLoop1 slice k step h).2 = 2 ^ m) ∧
    (∀ j y, (gallopLoop1 slice k step h).1[j]? = some y →
      (gallopLoop1 slice k step h).2 ≤ j → k ≤ y) := by
  induction slice, k, step, h using gallopLoop1.induct with
  | case1 slice value step h hg ih =>
    intro hs hh hpow
    rw [gallopLoop1, dif_pos hg]
    obtain ⟨m, rfl⟩ := hpow
    obtain ⟨ihs, ihh, ihd, ihp, ihb⟩ :=
      ih (sorted_drop _ hs) (ltAt_drop_zero hg) ⟨m + 1, by ring⟩
    exact ⟨ihs, ihh, ihd.trans (dropWhile_drop_of_ltAt hs hg), ihp, ihb⟩
  | case2 slice value step h hg =>
    intro hs hh hpow
    rw [gallopLoop1, dif_neg hg]
    exact ⟨hs, hh, rfl, hpow, fun j y hj hsj =>
      sorted_ge_at hs (le_of_not_ltAt hg) hsj y hj⟩

theorem gallopLoop2_spec (slice : List Nat) (k step : Nat) :
    slice.Sorted (· < ·) → ltAt slice 0 k = true →
    (step = 0 ∨ ∃ m, step = 2 ^ m) →
    (∀ j y, slice[j]? = some y → max (2 * step) 1 ≤ j → k ≤ y) →
    (gallopLoop2 slice k step).Sorted (· < ·) ∧
    ltAt (gallopLoop2 slice k step) 0 k = true ∧
    (gallopLoop2 slice k step).dropWhile (fun x => decide (x < k)) =
      slice.dropWhile (fun x => decide (x < k)) ∧
    (∀ j y, (gallopLoop2 slice k step)[j]? = some y → 1 ≤ j → k ≤ y) := by
  induction slice, k, step using gallopLoop2.induct with
  | case1 slice value =>
    intro hs hh _ hb
    rw [gallopLoop2, if_pos rfl]
    exact ⟨hs, hh, rfl, fun j y hj h1 => hb j y hj (by omega)⟩
  | case2 slice value step hstep ih =>
    intro hs hh hpow hb
    obtain ⟨m, rfl⟩ := hpow.resolve_left hstep
    rw [gallopLoop2, if_neg hstep]
    have hstep1 : 1 ≤ 2 ^ m := Nat.one_le_two_pow
    -- facts about halving a power of two
    have hhalf : (m = 0 ∧ 2 ^ m = 1 ∧ 2 ^ m / 2 = 0) ∨
        (∃ m', 2 ^ m / 2 = 2 ^ m' ∧ 2 ^ m = 2 * 2 ^ m') := by
      cases m with
      | zero => exact Or.inl ⟨rfl, rfl, rfl⟩
      | succ n =>
        refine Or.inr ⟨n, ?_, by ring⟩
        rw [pow_succ, Nat.mul_div_cancel _ (by omega)]
    by_cases hg : ltAt slice (2 ^ m) value = true
    · rw [if_pos hg]
      rw [dif_pos hg] at ih
      have hbound : ∀ j y, (slice.drop (2 ^ m))[j]? = some y →
          max (2 * (2 ^ m / 2)) 1 ≤ j → value ≤ y := by
        intro j y hj hmj
        rw [List.getElem?_drop] at hj
        refine hb _ y hj ?_
        rcases hhalf with ⟨_, h1, h0⟩ | ⟨m', hdiv, hdb⟩ <;> omega
      have hpow' : 2 ^ m / 2 = 0 ∨ ∃ m', 2 ^ m / 2 = 2 ^ m' := by
        rcases hhalf with ⟨_, _, h0⟩ | ⟨m', hdiv, _⟩
        · exact Or.inl h0
        · exact Or.inr ⟨m', hdiv⟩
      obtain ⟨ihs, ihh, ihd, ihb⟩ :=
        ih (sorted_drop _ hs) (ltAt_drop_zero hg) hpow' hbound
      exact ⟨ihs, ihh, ihd.trans (dropWhile_drop_of_ltAt hs hg), ihb⟩
    · rw [if_neg hg]
      rw [dif_neg hg] at ih
      have hbound : ∀ j y, slice[j]? = some y →
          max (2 * (2 ^ m / 2)) 1 ≤ j → value ≤ y := by
        intro j y hj hmj
        have hmle : 2 ^ m ≤ j := by
          rcases hhalf with ⟨_, h1, h0⟩ | ⟨m', hdiv, hdb⟩ <;> omega
        exact sorted_ge_at hs (le_of_not_ltAt hg) hmle y hj
      have hpow' : 2 ^ m / 2 = 0 ∨ ∃ m', 2 ^ m / 2 = 2 ^ m' := by
        rcases hhalf with ⟨_, _, h0⟩ | ⟨m', hdiv, _⟩
        · exact Or.inl h0
        · exact Or.inr ⟨m', hdiv⟩
      exact ih hs hh hpow' hbound

/-- On ascending input, `gallop` drops exactly the elements `< k`. -/
theorem gallop_eq_dropWhile (S : List Nat) (k : Nat) (hs : S.Sorted (· < ·)) :
    gallop S k = S.dropWhile (fun x => decide (x < k)) := by
  unfold gallop
  by_cases hh : ltAt S 0 k = true
  · rw [if_pos hh]
    obtain ⟨h1s, h1h, h1d, ⟨m, hm⟩, h1b⟩ :=
      gallopLoop1_spec S k 1 Nat.one_pos hs hh ⟨0, rfl⟩
    have h2m : 1 ≤ 2 ^ m := Nat.one_le_two_pow
    have hpow' : (gallopLoop1 S k 1 Nat.one_pos).2 / 2 = 0 ∨
        ∃ m', (gallopLoop1 S k 1 Nat.one_pos).2 / 2 = 2 ^ m' := by
      cases m with
      | zero => left; rw [hm]; decide
      | succ n =>
        right
        exact ⟨n, by rw [hm, pow_succ, Nat.mul_div_cancel _ (by omega)]⟩
    have hbound : ∀ j y, (gallopLoop1 S k 1 Nat.one_pos).1[j]? = some y →
        max (2 * ((gallopLoop1 S k 1 Nat.one_pos).2 / 2)) 1 ≤ j → k ≤ y := by
      intro j y hj hmj
      refine h1b j y hj ?_
      rw [hm] at hmj ⊢
      cases m with
      | zero => omega
      | succ n =>
        have he : (2:Nat) ^ (n+1) = 2 * 2 ^ n := by ring
        have hd : (2:Nat) ^ (n+1) / 2 = 2 ^ n := by
          rw [pow_succ, Nat.mul_div_cancel _ (by omega)]
        rw [hd] at hmj
        omega
    obtain ⟨h2s, h2h, h2d, h2b⟩ :=
      gallopLoop2_spec (gallopLoop1 S k 1 Nat.one_pos).1 k
        ((gallopLoop1 S k 1 Nat.one_pos).2 / 2) h1s h1h hpow' hbound
    rw [← dropWhile_eq_drop_one h2h h2b, h2d, h1d]
  · rw [if_neg hh]
    cases S with
    | nil => simp
    | cons a t =>
      have hka := le_of_not_ltAt hh a (by simp)
      rw [List.dropWhile_cons_of_neg (by simp only [decide_eq_true_eq]; omega)]

/-- The first element of `dropWhile (· < k)` is never `< k`. -/
theorem ltAt_dropWhile_zero (l : List Nat) (k : Nat) :
    ltAt (l.dropWhile (fun x => decide (x < k))) 0 k = false := by
  induction l with
  | nil => simp [ltAt]
  | cons a t ih =>
    by_cases h : a < k
    · rw [List.dropWhile_cons_of_pos (by simpa)]
      exact ih
    · rw [List.dropWhile_cons_of_neg (by simp only [decide_eq_true_eq]; omega)]
      simp only [ltAt, List.getElem?_cons_zero]
      exact decide_eq_false h

/-! ### The gallop result is always a contiguous suffix, sorted or not -/

theorem gallopLoop1_suffix (slice : List Nat) (k step : Nat) (h : 0 < step) :
    (gallopLoop1 slice k step h).1 <:+ slice := by
  induction slice, k, step, h using gallopLoop1.induct with
  | case1 slice value step h hg ih =>
    rw [gallopLoop1, dif_pos hg]
    exact ih.trans (List.drop_suffix step slice)
  | case2 slice value step h hg =>
    rw [gallopLoop1, dif_neg hg]

theorem gallopLoop2_suffix (slice : List Nat) (k step : Nat) :
    gallopLoop2 slice k step <:+ slice := by
  induction slice, k, step using gallopLoop2.induct with
  | case1 slice value =>
    rw [gallopLoop2, if_pos rfl]
  | case2 slice value step hstep ih =>
    rw [gallopLoop2, if_neg hstep]
    by_cases hg : ltAt slice step value = true
    · rw [if_pos hg]
      rw [dif_pos hg] at ih
      exact ih.trans (List.drop_suffix step slice)
    · rw [if_neg hg]
      rw [dif_neg hg] at ih
      exact ih

theorem dropWhile_eq_drop_length_takeWhile (p : Nat → Bool) (l : List Nat) :
    l.dropWhile p = l.drop (l.takeWhile p).length := by
  have h := @List.drop_left' Nat (l.takeWhile p) (l.dropWhile p) _ rfl
  rw [List.takeWhile_append_dropWhile] at h
  exact h.symm

/-- C3: for every ascending slice `S` and key `k`, `gallop S k` returns the
suffix of `S` starting at the smallest index `i` with `S[i] ≥ k` (the
characterising property `k ≤ S[j] ↔ i ≤ j` pins `i` as that smallest index);
when no element of `S` is `≥ k` the index is `S.length` and the suffix is
empty. -/
theorem gallop_contract (S : List Nat) (k : Nat) (hs : S.Sorted (· < ·)) :
    ∃ i, gallop S k = S.drop i ∧ i ≤ S.length ∧
      ∀ j (hj : j < S.length), k ≤ S.get ⟨j, hj⟩ ↔ i ≤ j := by
  have hpre := @List.takeWhile_prefix Nat S (fun x => decide (x < k))
  refine ⟨(S.takeWhile (fun x => decide (x < k))).length,
    by rw [gallop_eq_dropWhile S k hs, dropWhile_eq_drop_length_takeWhile],
    hpre.length_le, ?_⟩
  intro j hj
  simp only [List.get_eq_getElem]
  constructor
  · intro hk
    by_contra hij
    push_neg at hij
    have hjt : j < (S.takeWhile (fun x => decide (x < k))).length := hij
    have heq := hpre.getElem hjt
    have hmem := List.mem_takeWhile_imp (List.getElem_mem hjt)
    rw [heq] at hmem
    simp only [decide_eq_true_eq] at hmem
    omega
  · intro hij
    have hil : (S.takeWhile (fun x => decide (x < k))).length < S.length :=
      Nat.lt_of_le_of_lt hij hj
    have hnot : ¬ ltAt (S.dropWhile (fun x => decide (x < k))) 0 k = true := by
      rw [ltAt_dropWhile_zero]
      exact Bool.false_ne_true
    have hdw0 : (S.dropWhile (fun x => decide (x < k)))[0]? =
        some (S.get ⟨(S.takeWhile (fun x => decide (x < k))).length, hil⟩) := by
      rw [dropWhile_eq_drop_length_takeWhile, List.getElem?_drop]
      simp [List.getElem?_eq_getElem hil, List.get_eq_getElem]
    have hki : ∀ y, S[(S.takeWhile (fun x => decide (x < k))).length]? = some y →
        k ≤ y := by
      intro y hy
      rw [List.getElem?_eq_getElem hil, Option.some.injEq] at hy
      subst hy
      exact le_of_not_ltAt hnot _ hdw0
    exact sorted_ge_at hs hki hij S[j] (List.getElem?_eq_getElem hj)

/-- C7: applying `gallop` a second time with the same key to the result of
`gallop S k` returns that result unchanged (idempotence on ascending input). -/
theorem gallop_idempotent (S : List Nat) (k : Nat) (hs : S.Sorted (· < ·)) :
    gallop (gallop S k) k = gallop S k := by
  rw [gallop_eq_dropWhile S k hs, gallop,
    if_neg (by rw [ltAt_dropWhile_zero]; exact Bool.false_ne_true)]

/-- C10: for every slice `S` (no sortedness assumed) and every key `k`,
`gallop S k` is a total function whose result is a contiguous suffix of `S`;
all indexing in the embedding is via the same length-guarded lookups the
source performs. -/
theorem gallop_is_suffix (S : List Nat) (k : Nat) : gallop S k <:+ S := by
  unfold gallop
  by_cases hh : ltAt S 0 k = true
  · rw [if_pos hh]
    exact ((List.drop_suffix 1 _).trans (gallopLoop2_suffix _ _ _)).trans
      (gallopLoop1_suffix S k 1 Nat.one_pos)
  · rw [if_neg hh]

/-- Witness for C3 at the concrete input `S = [1,3,5]`, `k = 4`. -/
theorem gallop_contract_witness :
    ([1, 3, 5] : List Nat).Sorted (· < ·) ∧
      ∃ i, gallop [1, 3, 5] 4 = ([1, 3, 5] : List Nat).drop i ∧
        i ≤ ([1, 3, 5] : List Nat).length ∧
        ∀ j (hj : j < ([1, 3, 5] : List Nat).length),
          4 ≤ ([1, 3, 5] : List Nat).get ⟨j, hj⟩ ↔ i ≤ j :=
  ⟨by decide, gallop_contract [1, 3, 5] 4 (by decide)⟩

/-- Witness for C7 at the concrete input `S = [2, 4, 6, 8]`, `k = 5`. -/
theorem gallop_idempotent_witness :
    ([2, 4, 6, 8] : List Nat).Sorted (· < ·) ∧
      gallop (gallop [2, 4, 6, 8] 5) 5 = gallop [2, 4, 6, 8] 5 :=
  ⟨by decide, gallop_idempotent [2, 4, 6, 8] 5 (by decide)⟩

/-! ### Merge / gallop intersection counts agree with the set intersection -/

theorem interCount_cons_mem {a : Nat} {aaa bbb : List Nat} (h : a ∈ bbb) :
    interCount (a :: aaa) bbb = 1 + interCount aaa bbb := by
  unfold interCount
  rw [List.filter_cons]
  simp [h, Nat.add_comm]

theorem interCount_cons_not_mem {a : Nat} {aaa bbb : List Nat} (h : a ∉ bbb) :
    interCount (a :: aaa) bbb = interCount aaa bbb := by
  unfold interCount
  rw [List.filter_cons]
  simp [h]

theorem interCount_cons (a : Nat) (aaa bbb : List Nat) :
    interCount (a :: aaa) bbb = (if a ∈ bbb then 1 else 0) + interCount aaa bbb := by
  by_cases h : a ∈ bbb
  · rw [interCount_cons_mem h, if_pos h]
  · rw [interCount_cons_not_mem h, if_neg h, Nat.zero_add]

theorem interCount_congr_right {aaa b1 b2 : List Nat}
    (h : ∀ x ∈ aaa, x ∈ b1 ↔ x ∈ b2) : interCount aaa b1 = interCount aaa b2 := by
  unfold interCount
  rw [List.filter_congr]
  intro x hx
  simp [h x hx]

theorem mergeCount_eq_interCount :
    ∀ (aaa bbb : List Nat), aaa.Sorted (· < ·) → bbb.Sorted (· < ·) →
      mergeCount aaa bbb = interCount aaa bbb := by
  intro aaa bbb
  induction aaa, bbb using mergeCount.induct with
  | case1 bbb =>
    intro _ _
    simp [mergeCount, interCount]
  | case2 a aaa =>
    intro _ _
    simp [mergeCount, interCount]
  | case3 a aaa b bbb hab ih =>
    intro ha hb
    rw [List.sorted_cons] at ha hb
    rw [mergeCount, if_pos hab, ih (List.sorted_cons.mpr ha) hb.2]
    refine interCount_congr_right fun x hx => ?_
    have hax : a ≤ x := by
      rcases List.mem_cons.mp hx with rfl | hx
      · exact Nat.le_refl _
      · exact Nat.le_of_lt (ha.1 x hx)
    rw [List.mem_cons]
    -- `x ∈ bbb ↔ x = b ∨ x ∈ bbb`, and `x = b` is impossible as `b < a ≤ x`
    constructor
    · exact Or.inr
    · rintro (rfl | h)
      · omega
      · exact h
  | case4 a aaa b bbb hab hab2 ih =>
    intro ha hb
    rw [List.sorted_cons] at ha
    rw [mergeCount, if_neg hab, if_pos hab2, ih ha.2 hb]
    rw [interCount_cons_not_mem]
    intro hmem
    rw [List.sorted_cons] at hb
    rcases List.mem_cons.mp hmem with rfl | hmem
    · omega
    · exact absurd (hb.1 a hmem) (by omega)
  | case5 a aaa b bbb hab hab2 ih =>
    intro ha hb
    have hab3 : a = b := by omega
    subst hab3
    rw [List.sorted_cons] at ha hb
    rw [mergeCount, if_neg hab, if_neg hab2, ih ha.2 hb.2,
      interCount_cons_mem (List.mem_cons_self a bbb)]
    congr 1
    refine interCount_congr_right fun x hx => ?_
    have hax : a < x := ha.1 x hx
    rw [List.mem_cons]
    constructor
    · exact Or.inr
    · rintro (rfl | h)
      · omega
      · exact h

theorem head?_dropWhile_sorted {a : Nat} {bbb : List Nat}
    (hb : bbb.Sorted (· < ·)) :
    (bbb.dropWhile (fun x => decide (x < a))).head? = some a ↔ a ∈ bbb := by
  induction bbb with
  | nil => simp
  | cons b t ih =>
    rw [List.sorted_cons] at hb
    by_cases hba : b < a
    · rw [List.dropWhile_cons_of_pos (by simpa), ih hb.2, List.mem_cons]
      constructor
      · exact Or.inr
      · rintro (rfl | h)
        · omega
        · exact h
    · rw [List.dropWhile_cons_of_neg (by simp only [decide_eq_true_eq]; omega)]
      simp only [List.head?_cons, Option.some.injEq, List.mem_cons]
      constructor
      · intro h; exact Or.inl h.symm
      · rintro (rfl | h)
        · rfl
        · exact absurd (hb.1 a h) (by omega)

theorem mem_dropWhile_of_gt {a x : Nat} {bbb : List Nat} (hx : a < x) :
    x ∈ bbb.dropWhile (fun y => decide (y < a)) ↔ x ∈ bbb := by
  constructor
  · intro h
    exact (List.dropWhile_sublist (fun y => decide (y < a))).subset h
  · intro h
    conv at h => rw [← List.takeWhile_append_dropWhile (fun y => decide (y < a)) bbb]
    rcases List.mem_append.mp h with h | h
    · have := List.mem_takeWhile_imp h
      simp only [decide_eq_true_eq] at this
      omega
    · exact h

theorem gallopCount_eq_interCount :
    ∀ (aaa bbb : List Nat), aaa.Sorted (· < ·) → bbb.Sorted (· < ·) →
      gallopCount aaa bbb = interCount aaa bbb := by
  intro aaa
  induction aaa with
  | nil =>
    intro bbb _ _
    simp [gallopCount, interCount]
  | cons a aaa ih =>
    intro bbb ha hb
    rw [List.sorted_cons] at ha
    have hdw := gallop_eq_dropWhile bbb a hb
    have hsdw : (bbb.dropWhile (fun x => decide (x < a))).Sorted (· < ·) := by
      rw [dropWhile_eq_drop_length_takeWhile]
      exact sorted_drop _ hb
    rw [show gallopCount (a :: aaa) bbb =
      (if (gallop bbb a).head? = some a then 1 else 0) +
        gallopCount aaa (gallop bbb a) from rfl]
    rw [hdw, interCount_cons, ih _ ha.2 hsdw]
    congr 1
    · simp only [head?_dropWhile_sorted hb]
    · exact interCount_congr_right fun x hx => mem_dropWhile_of_gt (ha.1 x hx)

/-- C2: on ascending duplicate-free inputs the merge branch, the gallop
branch, and `intersect` itself (whichever branch its `a < b/4` test selects)
all return `|A ∩ B|`. -/
theorem intersect_modes_correct (A B : List Nat)
    (ha : A.Sorted (· < ·)) (hb : B.Sorted (· < ·)) :
    mergeCount A B = interCount A B ∧
    gallopCount A B = interCount A B ∧
    intersect A B = interCount A B := by
  refine ⟨mergeCount_eq_interCount A B ha hb,
    gallopCount_eq_interCount A B ha hb, ?_⟩
  unfold intersect
  by_cases h : A.length < B.length / 4
  · rw [if_pos h]
    exact gallopCount_eq_interCount A B ha hb
  · rw [if_neg h]
    exact mergeCount_eq_interCount A B ha hb

/-- Witness for C2 at `A = [1, 3]`, `B = [0, 1, 2, 3, 4, 5, 6, 7, 8, 9]`
(here `intersect` takes its merge branch, as `2 < 10 / 4` fails; the
conjunction also evaluates `gallopCount` on the same inputs directly). -/
theorem intersect_modes_correct_witness :
    ([1, 3] : List Nat).Sorted (· < ·) ∧
      ([0, 1, 2, 3, 4, 5, 6, 7, 8, 9] : List Nat).Sorted (· < ·) ∧
      (mergeCount [1, 3] [0, 1, 2, 3, 4, 5, 6, 7, 8, 9] =
          interCount [1, 3] [0, 1, 2, 3, 4, 5, 6, 7, 8, 9] ∧
        gallopCount [1, 3] [0, 1, 2, 3, 4, 5, 6, 7, 8, 9] =
          interCount [1, 3] [0, 1, 2, 3, 4, 5, 6, 7, 8, 9] ∧
        intersect [1, 3] [0, 1, 2, 3, 4, 5, 6, 7, 8, 9] =
          interCount [1, 3] [0, 1, 2, 3, 4, 5, 6, 7, 8, 9]) :=
  ⟨by decide, by decide,
    intersect_modes_correct [1, 3] [0, 1, 2, 3, 4, 5, 6, 7, 8, 9]
      (by decide) (by decide)⟩

/-! ### Triangle counting agrees with the brute-force oracle -/

theorem intersect_eq_interCount (A B : List Nat)
    (ha : A.Sorted (· < ·)) (hb : B.Sorted (· < ·)) :
    intersect A B = interCount A B := by
  unfold intersect
  by_cases h : A.length < B.length / 4
  · rw [if_pos h]
    exact gallopCount_eq_interCount A B ha hb
  · rw [if_neg h]
    exact mergeCount_eq_interCount A B ha hb

theorem list_range_toFinset (n : Nat) : (List.range n).toFinset = Finset.range n := by
  ext x
  simp [List.mem_range]

theorem sum_range_indicator {N : Nat} {S : List Nat} (f : Nat → Nat)
    (hnd : S.Nodup) (hsub : ∀ x ∈ S, x < N) :
    ((List.range N).map (fun b => if b ∈ S then f b else 0)).sum =
      (S.map f).sum := by
  rw [← List.sum_toFinset _ (List.nodup_range N), ← List.sum_toFinset f hnd,
    list_range_toFinset, ← Finset.sum_filter (fun b => b ∈ S) f]
  congr 1
  ext x
  simp only [Finset.mem_filter, Finset.mem_range, List.mem_toFinset]
  exact ⟨fun h => h.2, fun h => ⟨hsub x h, h⟩⟩

theorem interCount_eq_card_inter {X Y : List Nat} (hX : X.Nodup) :
    interCount X Y = (X.toFinset ∩ Y.toFinset).card := by
  unfold interCount
  rw [← List.toFinset_card_of_nodup (hX.filter _)]
  congr 1
  rw [List.toFinset_filter, ← Finset.filter_mem_eq_inter]
  apply Finset.filter_congr
  intro x _
  simp

theorem interCount_comm {A B : List Nat} (ha : A.Nodup) (hb : B.Nodup) :
    interCount A B = interCount B A := by
  rw [interCount_eq_card_inter ha, interCount_eq_card_inter hb, Finset.inter_comm]

theorem edges_wf {g : List (List Nat)} (hwf : WellFormed g) (a : Nat) :
    (edges g a).Sorted (· < ·) ∧ ∀ x ∈ edges g a, x < g.length := by
  unfold edges
  cases h : g[a]? with
  | none => simp
  | some l =>
    simp only [Option.getD_some]
    exact hwf l (List.getElem?_mem h)

theorem count_via_sum (S B : List Nat) :
    (S.map (fun c => if c ∈ B then (1 : Nat) else 0)).sum =
      (S.filter (fun c => decide (c ∈ B))).length := by
  induction S with
  | nil => simp
  | cons s S ih =>
    rw [List.map_cons, List.sum_cons, List.filter_cons, ih]
    by_cases h : s ∈ B
    · simp [h, Nat.add_comm]
    · simp [h]

/-- C6: `raw_triangles` returns the brute-force directed-triangle count
(triples `(a, b, c)` with `a→b`, `a→c`, `b→c`) on every well-formed graph;
the witness instantiates this at the 4-node graph `{0→1, 0→2, 1→2, 2→0}`. -/
theorem raw_triangles_correct (g : List (List Nat)) (hwf : WellFormed g) :
    raw_triangles g = bruteTriangles g := by
  unfold raw_triangles bruteTriangles
  refine congrArg List.sum (List.map_congr_left fun a _ => ?_)
  obtain ⟨hsa, hra⟩ := edges_wf hwf a
  have hinner : ∀ b, ((List.range g.length).map (fun c =>
      if b ∈ edges g a ∧ c ∈ edges g a ∧ c ∈ edges g b then (1 : Nat) else 0)).sum
      = if b ∈ edges g a then interCount (edges g a) (edges g b) else 0 := by
    intro b
    by_cases hb : b ∈ edges g a
    · rw [if_pos hb]
      have hfun : (fun c =>
          if b ∈ edges g a ∧ c ∈ edges g a ∧ c ∈ edges g b then (1 : Nat) else 0)
          = fun c => if c ∈ edges g a then (if c ∈ edges g b then 1 else 0) else 0 := by
        funext c
        by_cases h1 : c ∈ edges g a <;> by_cases h2 : c ∈ edges g b <;>
          simp [hb, h1, h2]
      rw [hfun, sum_range_indicator _ hsa.nodup hra, count_via_sum]
      rfl
    · rw [if_neg hb]
      simp [hb]
  calc ((edges g a).map (fun b =>
        if (edges g a).length < (edges g b).length
        then intersect (edges g a) (edges g b)
        else intersect (edges g b) (edges g a))).sum
      = ((edges g a).map (fun b => interCount (edges g a) (edges g b))).sum := by
        refine congrArg List.sum (List.map_congr_left fun b _ => ?_)
        obtain ⟨hsb, _⟩ := edges_wf hwf b
        by_cases hlen : (edges g a).length < (edges g b).length
        · rw [if_pos hlen]
          exact intersect_eq_interCount _ _ hsa hsb
        · rw [if_neg hlen, intersect_eq_interCount _ _ hsb hsa]
          exact interCount_comm hsb.nodup hsa.nodup
    _ = ((List.range g.length).map (fun b =>
          if b ∈ edges g a then interCount (edges g a) (edges g b) else 0)).sum :=
        (sum_range_indicator _ hsa.nodup hra).symm
    _ = ((List.range g.length).map (fun b => ((List.range g.length).map (fun c =>
          if b ∈ edges g a ∧ c ∈ edges g a ∧ c ∈ edges g b
          then (1 : Nat) else 0)).sum)).sum := by
        refine congrArg List.sum (List.map_congr_left fun b _ => ?_)
        exact (hinner b).symm

/-- Witness for C6: the 4-node directed graph `{0→1, 0→2, 1→2, 2→0}` is
well-formed and `raw_triangles` equals the brute-force oracle on it. -/
theorem raw_triangles_correct_witness :
    WellFormed [[1, 2], [2], [0], []] ∧
      raw_triangles [[1, 2], [2], [0], []] = bruteTriangles [[1, 2], [2], [0], []] :=
  ⟨by unfold WellFormed; decide,
    raw_triangles_correct [[1, 2], [2], [0], []] (by unfold WellFormed; decide)⟩

/-! ### The count phase: survival and the retained minimum -/

theorem countStep_singleton {P E : Type} (e : Extender P E) (ident : Nat)
    (p : P) (c i : Nat) :
    countStep e ident [(p, c, i)] =
      if e.count p > c then [(p, c, i)]
      else if e.count p > 0 then [(p, e.count p, ident)] else [] := by
  unfold countStep
  by_cases h1 : e.count p > c
  · simp [List.filterMap_cons, h1]
  · by_cases h2 : e.count p > 0 <;> simp [List.filterMap_cons, h1, h2]

theorem countFold_nil_state {P E : Type} (l : List (Nat × Extender P E)) :
    l.foldl (fun cs ie => countStep ie.2 ie.1 cs) [] = [] := by
  induction l with
  | nil => rfl
  | cons e rest ih =>
    rw [List.foldl_cons]
    have : countStep e.2 e.1 ([] : List (P × Nat × Nat)) = [] := rfl
    rw [this, ih]

theorem countFold_zero {P E : Type} :
    ∀ (exts : List (Extender P E)) (k : Nat) (p : P) (c0 i0 : Nat), 0 < c0 →
      (∃ e ∈ exts, e.count p = 0) →
      (exts.enumFrom k).foldl (fun cs ie => countStep ie.2 ie.1 cs) [(p, c0, i0)]
        = [] := by
  intro exts
  induction exts with
  | nil =>
    intro k p c0 i0 _ hz
    simp at hz
  | cons e rest ih =>
    intro k p c0 i0 hc0 hz
    simp only [List.enumFrom_cons, List.foldl_cons]
    rw [countStep_singleton]
    by_cases hzero : e.count p = 0
    · rw [if_neg (by omega), if_neg (by omega)]
      exact countFold_nil_state _
    · have hrest : ∃ e' ∈ rest, e'.count p = 0 := by
        rcases hz with ⟨e', he', hz'⟩
        rcases List.mem_cons.mp he' with rfl | he'
        · exact absurd hz' hzero
        · exact ⟨e', he', hz'⟩
      by_cases hcase : e.count p > c0
      · rw [if_pos hcase]
        exact ih (k + 1) p c0 i0 hc0 hrest
      · rw [if_neg hcase, if_pos (by omega)]
        exact ih (k + 1) p (e.count p) k (by omega) hrest

theorem countFold_singleton {P E : Type} :
    ∀ (exts : List (Extender P E)) (k : Nat) (p : P) (c0 i0 : Nat),
      0 < c0 → (∀ e ∈ exts, 0 < e.count p) →
      ∃ c i,
        (exts.enumFrom k).foldl (fun cs ie => countStep ie.2 ie.1 cs) [(p, c0, i0)]
          = [(p, c, i)] ∧
        0 < c ∧ c ≤ c0 ∧ (∀ e ∈ exts, c ≤ e.count p) ∧
        ((c = c0 ∧ i = i0 ∧ ∀ e ∈ exts, c0 < e.count p) ∨
          (∃ j, ∃ hj : j < exts.length,
            (exts.get ⟨j, hj⟩).count p = c ∧ i = k + j ∧
            ∀ j', ∀ hj' : j' < exts.length, j < j' →
              c < (exts.get ⟨j', hj'⟩).count p)) := by
  intro exts
  induction exts with
  | nil =>
    intro k p c0 i0 hc0 _
    exact ⟨c0, i0, rfl, hc0, Nat.le_refl _, by simp, Or.inl ⟨rfl, rfl, by simp⟩⟩
  | cons e rest ih =>
    intro k p c0 i0 hc0 hpos
    have hnc : 0 < e.count p := hpos e (List.mem_cons_self e rest)
    have hposr : ∀ e' ∈ rest, 0 < e'.count p :=
      fun e' he' => hpos e' (List.mem_cons_of_mem _ he')
    simp only [List.enumFrom_cons, List.foldl_cons]
    rw [countStep_singleton]
    by_cases hcase : e.count p > c0
    · rw [if_pos hcase]
      obtain ⟨c, i, heq, hc, hcc0, hle, hdisj⟩ := ih (k + 1) p c0 i0 hc0 hposr
      refine ⟨c, i, heq, hc, hcc0, ?_, ?_⟩
      · intro e' he'
        rcases List.mem_cons.mp he' with rfl | he'
        · omega
        · exact hle e' he'
      · rcases hdisj with ⟨h1, h2, h3⟩ | ⟨j, hj, hcount, hik, hlater⟩
        · refine Or.inl ⟨h1, h2, ?_⟩
          intro e' he'
          rcases List.mem_cons.mp he' with rfl | he'
          · exact hcase
          · exact h3 e' he'
        · refine Or.inr ⟨j + 1, Nat.succ_lt_succ hj, ?_, by omega, ?_⟩
          · rw [List.get_cons_succ]
            exact hcount
          · intro j' hj' hlt
            cases j' with
            | zero => omega
            | succ j'' =>
              rw [List.get_cons_succ]
              exact hlater j'' (Nat.lt_of_succ_lt_succ hj') (by omega)
    · rw [if_neg hcase, if_pos hnc]
      obtain ⟨c, i, heq, hc, hcc0, hle, hdisj⟩ := ih (k + 1) p (e.count p) k hnc hposr
      refine ⟨c, i, heq, hc, by omega, ?_, ?_⟩
      · intro e' he'
        rcases List.mem_cons.mp he' with rfl | he'
        · exact hcc0
        · exact hle e' he'
      · rcases hdisj with ⟨h1, h2, h3⟩ | ⟨j, hj, hcount, hik, hlater⟩
        · refine Or.inr ⟨0, Nat.succ_pos _, ?_, by omega, ?_⟩
          · exact h1.symm
          · intro j' hj' hlt
            cases j' with
            | zero => omega
            | succ j'' =>
              rw [List.get_cons_succ]
              have hmem := List.get_mem rest j'' (Nat.lt_of_succ_lt_succ hj')
              have := h3 _ hmem
              omega
        · refine Or.inr ⟨j + 1, Nat.succ_lt_succ hj, ?_, by omega, ?_⟩
          · rw [List.get_cons_succ]
            exact hcount
          · intro j' hj' hlt
            cases j' with
            | zero => omega
            | succ j'' =>
              rw [List.get_cons_succ]
              exact hlater j'' (Nat.lt_of_succ_lt_succ hj') (by omega)

/-- C9: a prefix entering the count phase survives it (appears in the output
at all) iff every extender reports a strictly positive count for it; a single
zero count removes it before propose even when all other counts are
nonzero. -/
theorem countPhase_survival {P E : Type} (exts : List (Extender P E)) (p : P) :
    countPhase exts [p] ≠ [] ↔ ∀ e ∈ exts, 0 < e.count p := by
  unfold countPhase
  rw [List.enum_eq_enumFrom]
  have hmap : ([p].map (fun q => (q, 2 ^ 31, 0))) = [(p, 2 ^ 31, (0 : Nat))] := rfl
  rw [hmap]
  constructor
  · intro hne e he
    by_contra hz
    exact hne (countFold_zero exts 0 p (2 ^ 31) 0 (by norm_num)
      ⟨e, he, by omega⟩)
  · intro hpos
    obtain ⟨c, i, heq, _⟩ :=
      countFold_singleton exts 0 p (2 ^ 31) 0 (by norm_num) hpos
    rw [heq]
    simp

/-- Counterexample to C1, in two parts.  (i) Two extenders that both report
count 5 for the prefix: the retained record carries extender index 1 — the
HIGHEST index achieving the minimum — not index 0 as the claim's lowest-index
tie-break asserts.  (ii) A single extender reporting count `2 ^ 31 + 1`: the
prefix survives, but the phase retains the untouched start record
`(2 ^ 31, 0)` — a count no extender reported — instead of the extender's
minimum count `2 ^ 31 + 1`. -/
theorem countPhase_tie_counterexample :
    (countPhase
      [(⟨fun _ => 5, fun _ => [], fun _ e => e⟩ : Extender Nat Nat),
       ⟨fun _ => 5, fun _ => [], fun _ e => e⟩] [0] = [(0, 5, 1)]) ∧
    (countPhase
      [(⟨fun _ => 2 ^ 31 + 1, fun _ => [], fun _ e => e⟩ : Extender Nat Nat)]
      [0] = [(0, 2 ^ 31, 0)]) := by
  constructor <;> decide

/-- C1 (amended): for a prefix that survives the count phase, provided at
least one extender reports a count at most the `1 << 31` start value (part
(ii) of the counterexample shows the phase otherwise retains the untouched
start record `(1 << 31, 0)`, matching no extender), the retained pair is the
minimum of `count(prefix)` over all extenders together with the LARGEST index
of an extender achieving that minimum — part (i) shows ties go to the highest
index, not the lowest — and that extender's count is exactly the retained
minimum nonzero count. -/
theorem countPhase_min_highest {P E : Type} (exts : List (Extender P E))
    (p : P) (hpos : ∀ e ∈ exts, 0 < e.count p)
    (hbound : ∃ e ∈ exts, e.count p ≤ 2 ^ 31) :
    ∃ c i, ∃ hi : i < exts.length,
      countPhase exts [p] = [(p, c, i)] ∧
      (exts.get ⟨i, hi⟩).count p = c ∧ 0 < c ∧
      (∀ e ∈ exts, c ≤ e.count p) ∧
      (∀ j, ∀ hj : j < exts.length, i < j →
        c < (exts.get ⟨j, hj⟩).count p) := by
  obtain ⟨c, i, heq, hc, _, hle, hdisj⟩ :=
    countFold_singleton exts 0 p (2 ^ 31) 0 (by norm_num) hpos
  have heq' : countPhase exts [p] = [(p, c, i)] := by
    unfold countPhase
    rw [List.enum_eq_enumFrom]
    exact heq
  rcases hdisj with ⟨h1, _, h3⟩ | ⟨j, hj, hcount, hik, hlater⟩
  · obtain ⟨e0, he0, hb0⟩ := hbound
    exact absurd hb0 (by have := h3 e0 he0; omega)
  · refine ⟨c, i, by omega, heq', ?_, hc, hle, ?_⟩
    · have : i = j := by omega
      subst this
      exact hcount
    · intro j' hj' hlt
      exact hlater j' hj' (by omega)

/-- Witness for the amended C1 at three concrete extenders with counts
7, 5, 5: the retained pair is `(5, 2)` — minimum count 5, highest achieving
index 2. -/
theorem countPhase_min_highest_witness :
    (∀ e ∈ ([(⟨fun _ => 7, fun _ => [], fun _ e => e⟩ : Extender Nat Nat),
       ⟨fun _ => 5, fun _ => [], fun _ e => e⟩,
       ⟨fun _ => 5, fun _ => [], fun _ e => e⟩] : List (Extender Nat Nat)),
      0 < e.count 0) ∧
      (∃ e ∈ ([(⟨fun _ => 7, fun _ => [], fun _ e => e⟩ : Extender Nat Nat),
        ⟨fun _ => 5, fun _ => [], fun _ e => e⟩,
        ⟨fun _ => 5, fun _ => [], fun _ e => e⟩] : List (Extender Nat Nat)),
        e.count 0 ≤ 2 ^ 31) ∧
      (∃ c i, ∃ hi : i < ([(⟨fun _ => 7, fun _ => [], fun _ e => e⟩ : Extender Nat Nat),
         ⟨fun _ => 5, fun _ => [], fun _ e => e⟩,
         ⟨fun _ => 5, fun _ => [], fun _ e => e⟩] : List (Extender Nat Nat)).length,
        countPhase [(⟨fun _ => 7, fun _ => [], fun _ e => e⟩ : Extender Nat Nat),
          ⟨fun _ => 5, fun _ => [], fun _ e => e⟩,
          ⟨fun _ => 5, fun _ => [], fun _ e => e⟩] [0] = [(0, c, i)] ∧
        (([(⟨fun _ => 7, fun _ => [], fun _ e => e⟩ : Extender Nat Nat),
           ⟨fun _ => 5, fun _ => [], fun _ e => e⟩,
           ⟨fun _ => 5, fun _ => [], fun _ e => e⟩] : List (Extender Nat Nat)).get
             ⟨i, hi⟩).count 0 = c ∧ 0 < c ∧
        (∀ e ∈ ([(⟨fun _ => 7, fun _ => [], fun _ e => e⟩ : Extender Nat Nat),
           ⟨fun _ => 5, fun _ => [], fun _ e => e⟩,
           ⟨fun _ => 5, fun _ => [], fun _ e => e⟩] : List (Extender Nat Nat)),
          c ≤ e.count 0) ∧
        (∀ j, ∀ hj : j < ([(⟨fun _ => 7, fun _ => [], fun _ e => e⟩ : Extender Nat Nat),
           ⟨fun _ => 5, fun _ => [], fun _ e => e⟩,
           ⟨fun _ => 5, fun _ => [], fun _ e => e⟩] : List (Extender Nat Nat)).length,
          i < j →
          c < (([(⟨fun _ => 7, fun _ => [], fun _ e => e⟩ : Extender Nat Nat),
            ⟨fun _ => 5, fun _ => [], fun _ e => e⟩,
            ⟨fun _ => 5, fun _ => [], fun _ e => e⟩] : List (Extender Nat Nat)).get
              ⟨j, hj⟩).count 0)) :=
  ⟨by decide, by decide,
    countPhase_min_highest _ 0 (by decide) (by decide)⟩

/-! ### The layer: the owner proposes, the others intersect, empties drop -/

theorem stepFold_none {P E : Type} (exts : List (Extender P E)) (p : P) :
    ∀ l : List Nat,
      l.foldl (fun acc other => acc.bind (fun es =>
        if ((exts.getD other (defaultExtender P E)).intersect p es).length > 0
        then some ((exts.getD other (defaultExtender P E)).intersect p es)
        else none)) none = none := by
  intro l
  induction l with
  | nil => rfl
  | cons o l ih =>
    rw [List.foldl_cons]
    exact ih

theorem mem_intersectPhase {P E : Type} (ext : Extender P E)
    (recs : List (P × List E)) (p : P) (es : List E) :
    (p, es) ∈ intersectPhase ext recs ↔
      ∃ es0, (p, es0) ∈ recs ∧ (ext.intersect p es0).length > 0 ∧
        ext.intersect p es0 = es := by
  unfold intersectPhase
  rw [List.mem_filterMap]
  constructor
  · rintro ⟨r, hr, hopt⟩
    by_cases hlen : (ext.intersect r.1 r.2).length > 0
    · rw [if_pos hlen] at hopt
      injection hopt with h
      rw [Prod.mk.injEq] at h
      obtain ⟨h1, h2⟩ := h
      subst h1
      exact ⟨r.2, hr, hlen, h2⟩
    · rw [if_neg hlen] at hopt
      cases hopt
  · rintro ⟨es0, hmem, hlen, hes⟩
    refine ⟨(p, es0), hmem, ?_⟩
    rw [if_pos hlen, hes]

theorem mem_intersect_fold {P E : Type} (exts : List (Extender P E)) (p : P) :
    ∀ (l : List Nat) (recs : List (P × List E)) (es : List E),
      ((p, es) ∈ l.foldl
        (fun cur other => intersectPhase (exts.getD other (defaultExtender P E)) cur)
        recs ↔
      ∃ es0, (p, es0) ∈ recs ∧ stepFold exts p l es0 = some es) := by
  intro l
  induction l with
  | nil =>
    intro recs es
    simp [stepFold]
  | cons o l ih =>
    intro recs es
    rw [List.foldl_cons, ih]
    constructor
    · rintro ⟨es1, hmem, hfold⟩
      rw [mem_intersectPhase] at hmem
      obtain ⟨es0, hmem0, hlen, hes1⟩ := hmem
      refine ⟨es0, hmem0, ?_⟩
      unfold stepFold
      rw [List.foldl_cons]
      have hbind : (some es0).bind (fun es =>
          if ((exts.getD o (defaultExtender P E)).intersect p es).length > 0
          then some ((exts.getD o (defaultExtender P E)).intersect p es)
          else none) = some es1 := by
        rw [Option.some_bind, if_pos hlen, hes1]
      rw [hbind]
      exact hfold
    · rintro ⟨es0, hmem0, hfold⟩
      unfold stepFold at hfold
      rw [List.foldl_cons, Option.some_bind] at hfold
      by_cases hlen : ((exts.getD o (defaultExtender P E)).intersect p es0).length > 0
      · rw [if_pos hlen] at hfold
        refine ⟨(exts.getD o (defaultExtender P E)).intersect p es0, ?_, hfold⟩
        rw [mem_intersectPhase]
        exact ⟨es0, hmem0, hlen, rfl⟩
      · rw [if_neg hlen] at hfold
        rw [stepFold_none] at hfold
        cases hfold

/-- Characterisation of one GenericJoin layer, shared by the structural and
emptiness theorems: a pair is emitted iff its prefix survived the count phase
owned by some in-range extender index `i`, extender `i` (alone) proposed, and
the proposal survived every other extender's intersect filter, applied in
declaration order. -/
theorem extendLayer_mem {P E : Type} (exts : List (Extender P E)) (ps : List P)
    (p : P) (es : List E) :
    (p, es) ∈ extendLayer exts ps ↔
      ∃ c i, (p, c, i) ∈ countPhase exts ps ∧ i < exts.length ∧
        processOne exts i p = some es := by
  unfold extendLayer
  rw [List.mem_flatten]
  constructor
  · rintro ⟨part, hpart, hmem⟩
    rw [List.mem_map] at hpart
    obtain ⟨index, hindex, rfl⟩ := hpart
    rw [List.mem_range] at hindex
    rw [mem_intersect_fold] at hmem
    obtain ⟨es0, hmem0, hfold⟩ := hmem
    unfold proposePhase at hmem0
    rw [List.mem_map] at hmem0
    obtain ⟨q, hq, hpair⟩ := hmem0
    rw [Prod.mk.injEq] at hpair
    obtain ⟨hq1, hq2⟩ := hpair
    have hq1' := hq1.symm
    subst hq1'
    rw [List.mem_map] at hq
    obtain ⟨r, hr, hr1⟩ := hq
    rw [List.mem_filter] at hr
    have hri : r.2.2 = index := by
      have := hr.2
      simpa using this
    refine ⟨r.2.1, index, ?_, hindex, ?_⟩
    · have hr' : r = (p, r.2.1, index) := by
        rw [← hr1, ← hri]
      rw [← hr']
      exact hr.1
    · unfold processOne
      rw [hq2]
      exact hfold
  · rintro ⟨c, i, hmem, hi, hproc⟩
    refine ⟨_, List.mem_map.mpr ⟨i, List.mem_range.mpr hi, rfl⟩, ?_⟩
    rw [mem_intersect_fold]
    refine ⟨(exts.getD i (defaultExtender P E)).propose p, ?_, hproc⟩
    unfold proposePhase
    rw [List.mem_map]
    refine ⟨p, ?_, rfl⟩
    rw [List.mem_map]
    refine ⟨(p, c, i), ?_, rfl⟩
    rw [List.mem_filter]
    exact ⟨hmem, by simp⟩

/-- C4: a pair `(p, es)` is emitted by a GenericJoin layer exactly when `p`
survived the count phase with owning extender index `i`, the owner `i` alone
materialised the proposal `propose p`, and every non-owning extender, in
declaration order, filtered it without ever emptying it (`processOne`); no
symmetric all-relations intersection occurs — the owner's own `intersect` is
never applied to its proposal. -/
theorem extendLayer_structure {P E : Type} (exts : List (Extender P E))
    (ps : List P) (p : P) (es : List E) :
    (p, es) ∈ extendLayer exts ps ↔
      ∃ c i, (p, c, i) ∈ countPhase exts ps ∧ i < exts.length ∧
        processOne exts i p = some es :=
  extendLayer_mem exts ps p es

theorem stepFold_nonempty {P E : Type} (exts : List (Extender P E)) (p : P) :
    ∀ (l : List Nat) (es0 es : List E), l ≠ [] →
      stepFold exts p l es0 = some es → es ≠ [] := by
  intro l
  induction l with
  | nil =>
    intro es0 es h
    exact absurd rfl h
  | cons o l ih =>
    intro es0 es _ hfold
    unfold stepFold at hfold
    rw [List.foldl_cons, Option.some_bind] at hfold
    by_cases hlen : ((exts.getD o (defaultExtender P E)).intersect p es0).length > 0
    · rw [if_pos hlen] at hfold
      cases l with
      | nil =>
        rw [show ∀ x : Option (List E), List.foldl _ x [] = x from fun _ => rfl] at hfold
        injection hfold with h
        rw [← h]
        intro hcon
        rw [hcon] at hlen
        simp at hlen
      | cons o2 l2 =>
        exact ih _ es (List.cons_ne_nil o2 l2) hfold
    · rw [if_neg hlen] at hfold
      rw [stepFold_none] at hfold
      cases hfold

/-- Counterexample to C5 as stated: a layer with a single extender whose
`count` is 1 but whose `propose` is empty.  The proposal is emitted without
passing any intersect operator, so the layer emits the pair `(0, [])` with an
EMPTY extensions vector. -/
theorem extendLayer_empty_emission_counterexample :
    extendLayer [(⟨fun _ => 1, fun _ => [], fun _ e => e⟩ : Extender Nat Nat)] [0]
      = [(0, [])] := by
  decide

/-- C5 (amended): in a layer with at least two extenders every emitted pair
has passed at least one intersect operator, so a prefix whose candidates
become empty at any intersect step is dropped there, and every emitted
`(prefix, extensions)` pair has a non-empty extensions vector.  (With a
single extender the owner's proposal is emitted unfiltered and may be
empty.) -/
theorem extendLayer_no_empty_emission {P E : Type} (exts : List (Extender P E))
    (ps : List P) (h2 : 2 ≤ exts.length) :
    ∀ p es, (p, es) ∈ extendLayer exts ps → es ≠ [] := by
  intro p es hmem
  rw [extendLayer_mem] at hmem
  obtain ⟨c, i, _, hi, hproc⟩ := hmem
  unfold processOne at hproc
  refine stepFold_nonempty exts p _ _ es ?_ hproc
  have hwit : (if i = 0 then 1 else 0) ∈
      (List.range exts.length).filter (fun x => decide (x ≠ i)) := by
    rw [List.mem_filter, List.mem_range]
    by_cases hzero : i = 0
    · rw [if_pos hzero]
      exact ⟨by omega, by simp [hzero]⟩
    · rw [if_neg hzero]
      exact ⟨by omega, by simp [Ne.symm hzero]⟩
  exact List.ne_nil_of_mem hwit

/-- Witness for the amended C5 at two concrete extenders. -/
theorem extendLayer_no_empty_emission_witness :
    2 ≤ ([(⟨fun _ => 2, fun _ => [1, 2], fun _ e => e⟩ : Extender Nat Nat),
          ⟨fun _ => 3, fun _ => [1, 2, 3], fun _ e => e⟩] :
          List (Extender Nat Nat)).length ∧
      ∀ p es, (p, es) ∈ extendLayer
          [(⟨fun _ => 2, fun _ => [1, 2], fun _ e => e⟩ : Extender Nat Nat),
           ⟨fun _ => 3, fun _ => [1, 2, 3], fun _ e => e⟩] [7] → es ≠ [] :=
  ⟨by decide, extendLayer_no_empty_emission _ [7] (by decide)⟩

/-! ### CLI exit behaviour of the example harnesses -/

/-- Counterexample to C8 as stated: `main` of `examples/triangles-single.rs`
invoked with no graph-file argument prints its usage line and returns
normally — exit status 0, not nonzero/abnormal — whatever the loader would
have done. -/
theorem trianglesMain_no_args_counterexample :
    trianglesMain [] true = ExitBehavior.normal true ∧
    trianglesMain [] false = ExitBehavior.normal true :=
  ⟨rfl, rfl⟩

/-- C8 (amended): both harnesses exit 0 on success; the triangle program
exits abnormally (nonzero) on graph-load I/O failure, and the iterative
harness exits nonzero/abnormally on malformed arguments — a docopt parse
failure exits via `e.exit()`, and a non-numeric `--workers` / `--processid` /
`--processes` value panics — and proceeds when they all parse.  The one
exception to the claim: the triangle program with a MISSING graph-file
argument prints a usage line and exits 0. -/
theorem cli_exit_behaviour :
    (∀ src rest, trianglesMain (src :: rest) true = ExitBehavior.normal false) ∧
    (∀ src rest, trianglesMain (src :: rest) false = ExitBehavior.abnormal) ∧
    (∀ b, trianglesMain [] b = ExitBehavior.normal true) ∧
    (∀ w p n, pagerankMain false w p n =
      Except.error "docopt parse failure: e.exit terminates the process") ∧
    (∀ p n, pagerankMain true none p n =
      Except.error "invalid setting for --workers") ∧
    (∀ w n, pagerankMain true (some w) none n =
      Except.error "invalid setting for --processid") ∧
    (∀ w p, pagerankMain true (some w) (some p) none =
      Except.error "invalid setting for --processes") ∧
    (∀ w p n, pagerankMain true (some w) (some p) (some n) = Except.ok ()) :=
  ⟨fun _ _ => rfl, fun _ _ => rfl, fun _ => rfl, fun _ _ _ => rfl,
    fun _ _ => rfl, fun _ _ => rfl, fun _ _ => rfl, fun _ _ _ => rfl⟩

end DataflowJoin

/-! Concrete evaluations of the gallop embedding, checking it against the
behaviour of the source on small inputs. -/

section sanity
open DataflowJoin
example : gallop [0,1,2,3,4,5,6,7,8,9] 9 = [9] := by
  simp [gallop, gallopLoop1, gallopLoop2, ltAt]
example : gallop [0,1,2,3,4,5,6,7,8,9] 4 = [4,5,6,7,8,9] := by
  simp [gallop, gallopLoop1, gallopLoop2, ltAt]
example : gallop [0,1,2,3] 10 = [] := by
  simp [gallop, gallopLoop1, gallopLoop2, ltAt]
example : gallop [5,6] 3 = [5,6] := by
  simp [gallop, gallopLoop1, gallopLoop2, ltAt]
example : gallop [] 3 = [] := by
  simp [gallop, gallopLoop1, gallopLoop2, ltAt]
example : gallop [1,3,5,7,9,11,13] 8 = [9,11,13] := by
  simp [gallop, gallopLoop1, gallopLoop2, ltAt]
end sanity
